import Mathlib

set_option maxHeartbeats 1000000

/-!
Verification of the coin-flip simulator (src/coin_flip.py).

The program flips a fair coin, tracks streaks of consecutive heads, and
aggregates per-worker streak histograms.  A Python dict
`{chain_length: [num_heads, num_tails]}` is embedded as an
insertion-ordered association list `List (Nat × Nat × Nat)` of entries
`(chain_length, (num_heads, num_tails))`; dict equality (which ignores
insertion order) is embedded as extensional equality of lookups.
Randomness is embedded by quantifying over the sequence of flip outcomes
(`true` = heads, i.e. `random.random() >= 0.5`).
-/

/-- Embedding of the Python dict `{chain_length: [num_heads, num_tails]}`:
an insertion-ordered association list of entries `(key, heads, tails)`. -/
abbrev Histogram := List (Nat × Nat × Nat)

/-- Dict lookup `h[k]`: the value of the first entry whose key is `k`. -/
def hlookup : Histogram → Nat → Option (Nat × Nat)
  | [], _ => none
  | (k, v) :: rest, j => if k = j then some v else hlookup rest j

/-- Keys of a histogram, in insertion order. -/
def keysOf (h : Histogram) : List Nat := h.map Prod.fst

/-- In-place update `h[j][0] += w.1; h[j][1] += w.2` on the first entry
with key `j` (a no-op if the key is absent). -/
def addToEntry : Histogram → Nat → Nat × Nat → Histogram
  | [], _, _ => []
  | (k, v) :: rest, j, w =>
    if k = j then (k, v.1 + w.1, v.2 + w.2) :: rest
    else (k, v) :: addToEntry rest j w

/-- Body of the lazy-creation step in perform_trials: if the key `counter`
is absent, insert it with value `(0, 0)` (Python appends new dict keys at
the end of the iteration order). -/
def ensureEntry (h : Histogram) (counter : Nat) : Histogram :=
  if (hlookup h counter).isSome then h else h ++ [(counter, 0, 0)]

/-- Loop of perform_trials over the remaining flips, carrying the current
streak counter and the histogram built so far (mirrors lines 40-53 of
src/coin_flip.py: create/fetch the entry for `counter`, then on heads add
one to its heads component and increment `counter`, on tails add one to
its tails component and reset `counter` to 1). -/
def perform_trialsAux : List Bool → Nat → Histogram → Histogram
  | [], _, head_chains => head_chains
  | f :: rest, counter, head_chains =>
    let hc := ensureEntry head_chains counter
    if f then perform_trialsAux rest (counter + 1) (addToEntry hc counter (1, 0))
    else perform_trialsAux rest 1 (addToEntry hc counter (0, 1))

/-- Embedding of perform_trials: the number of trials is the length of the
flip-outcome list, the counter starts at 1 and the histogram empty. -/
def perform_trials (flips : List Bool) : Histogram :=
  perform_trialsAux flips 1 []

/-- Inner-loop body of merge_trials for one entry `(k, item)` of an input:
if `k` is already in `d` add `item` into `d[k]` componentwise, otherwise
append a copy of `item` under key `k` (Python line `d[k] = item[:]`). -/
def mergeOne (d : Histogram) (k : Nat) (item : Nat × Nat) : Histogram :=
  if (hlookup d k).isSome then addToEntry d k item else d ++ [(k, item)]

/-- Embedding of merge_trials: fold the inner loop over every entry of
every input histogram, starting from the empty dict. -/
def merge_trials (trial_results : List Histogram) : Histogram :=
  trial_results.foldl (fun d tr => tr.foldl (fun d2 e => mergeOne d2 e.1 e.2) d) []

/-- Embedding of yield_worker_batch_sizes: the generator yields
`batch_size + int(i < remainder)` for `i` in `range(num_workers)`. -/
def yield_worker_batch_sizes (num_trials num_workers : Nat) : List Nat :=
  (List.range num_workers).map
    (fun i => num_trials / num_workers +
      if i < num_trials - num_trials / num_workers * num_workers then 1 else 0)

/-- Total number of flips recorded in a histogram: sum of heads + tails
over all entries. -/
def totalFlips (h : Histogram) : Nat := (h.map (fun e => e.2.1 + e.2.2)).sum

/-- Total number of tails recorded in a histogram. -/
def totalTails (h : Histogram) : Nat := (h.map (fun e => e.2.2)).sum

/-- Heads component stored at key `k` (0 if the key is absent, matching
`merged_results.get(i, [0, 0])`). -/
def headsAt (h : Histogram) (k : Nat) : Nat := ((hlookup h k).getD (0, 0)).1

/-- Tails component stored at key `k` (0 if the key is absent). -/
def tailsAt (h : Histogram) (k : Nat) : Nat := ((hlookup h k).getD (0, 0)).2

/-- Dict equality of two histograms (Python `==` ignores insertion order):
both sides associate the same optional value to every key. -/
def HistEq (a b : Histogram) : Prop := ∀ k, hlookup a k = hlookup b k

/-! Generic facts about the range-and-map shape of the batch splitter. -/

theorem sum_range_map_indicator (b r : Nat) :
    ∀ w : Nat, ((List.range w).map (fun i => b + if i < r then 1 else 0)).sum
      = w * b + min r w := by
  intro w
  induction w with
  | zero => simp
  | succ n ih =>
    rw [List.range_succ, List.map_append, List.sum_append]
    simp only [List.map_cons, List.map_nil, List.sum_cons, List.sum_nil, ih]
    by_cases hn : n < r
    · have : min r n = n := by omega
      have h2 : min r (n + 1) = n + 1 := by omega
      simp [this, h2, hn, Nat.succ_mul]
      omega
    · have : min r n = min r (n + 1) := by omega
      simp [hn, ← this, Nat.succ_mul]
      omega

theorem getD_range_map (f : Nat → Nat) (w i : Nat) (hi : i < w) :
    (((List.range w).map f).getD i 0) = f i := by
  rw [List.getD_eq_getElem?_getD]
  rw [List.getElem?_map]
  rw [List.getElem?_range hi]
  rfl

/-- Sizes yielded by the splitter, as a function of the position. -/
theorem yield_getD (n w i : Nat) (hi : i < w) :
    (yield_worker_batch_sizes n w).getD i 0
      = n / w + if i < n - n / w * w then 1 else 0 := by
  unfold yield_worker_batch_sizes
  exact getD_range_map _ w i hi

/-- Property of the Batch Splitter asserted by claim C1, at given
`num_trials = n` and `num_workers = w`. -/
def BatchSplitterSpec (n w : Nat) : Prop :=
  (yield_worker_batch_sizes n w).length = w ∧
  (yield_worker_batch_sizes n w).sum = n ∧
  (∀ i, i < w → (yield_worker_batch_sizes n w).getD i 0
      = if i < n - n / w * w then n / w + 1 else n / w) ∧
  (∀ i j, i ≤ j → j < w →
    (yield_worker_batch_sizes n w).getD j 0 ≤ (yield_worker_batch_sizes n w).getD i 0 ∧
    (yield_worker_batch_sizes n w).getD i 0 ≤ (yield_worker_batch_sizes n w).getD j 0 + 1) ∧
  yield_worker_batch_sizes 7 3 = [3, 2, 2]

/-- C1: for every total_trials ≥ 0 and worker_count ≥ 1 the splitter
yields exactly worker_count sizes summing to total_trials; with
base = total_trials / worker_count and
remainder = total_trials - base * worker_count, the first remainder
values are base + 1 and the rest base; hence the sizes are non-increasing
and any two differ by at most 1; and splitting 7 over 3 workers yields
[3, 2, 2]. -/
theorem C1_batch_splitter (n w : Nat) (hw : 1 ≤ w) : BatchSplitterSpec n w := by
  have hrem : n - n / w * w = n % w := by
    have hdm := Nat.div_add_mod n w
    have : n / w * w = w * (n / w) := Nat.mul_comm _ _
    omega
  have hmod : n % w < w := Nat.mod_lt _ (by omega)
  refine ⟨by simp [yield_worker_batch_sizes], ?_, ?_, ?_, by decide⟩
  · unfold yield_worker_batch_sizes
    rw [sum_range_map_indicator]
    rw [hrem]
    have : min (n % w) w = n % w := by omega
    rw [this]
    have hdm := Nat.div_add_mod n w
    have : n / w * w = w * (n / w) := Nat.mul_comm _ _
    omega
  · intro i hi
    rw [yield_getD n w i hi]
    by_cases h : i < n - n / w * w <;> simp [h]
  · intro i j hij hj
    rw [yield_getD n w i (by omega), yield_getD n w j hj]
    by_cases h1 : i < n - n / w * w <;> by_cases h2 : j < n - n / w * w <;>
      simp [h1, h2] <;> omega

/-- Witness for C1 at total_trials = 7, worker_count = 3. -/
theorem C1_batch_splitter_witness : 1 ≤ 3 ∧ BatchSplitterSpec 7 3 :=
  ⟨by decide, C1_batch_splitter 7 3 (by decide)⟩

/-! Lookup lemmas for the dict operations. -/

theorem hlookup_isSome_iff_mem (h : Histogram) (j : Nat) :
    (hlookup h j).isSome = true ↔ j ∈ keysOf h := by
  induction h with
  | nil => simp [hlookup, keysOf]
  | cons e rest ih =>
    obtain ⟨k, v⟩ := e
    by_cases hk : k = j
    · subst hk; simp [hlookup, keysOf]
    · have hk2 : ¬ j = k := fun hh => hk hh.symm
      simp [hlookup, keysOf, hk, hk2] at ih ⊢
      exact ih

theorem hlookup_append_single (d : Histogram) (k : Nat) (v : Nat × Nat) (j : Nat) :
    hlookup (d ++ [(k, v)]) j
      = if (hlookup d j).isSome then hlookup d j
        else if k = j then some v else none := by
  induction d with
  | nil => simp [hlookup]
  | cons e rest ih =>
    obtain ⟨k2, v2⟩ := e
    by_cases hk : k2 = j <;> simp [hlookup, hk, ih]

theorem hlookup_addToEntry (d : Histogram) (j : Nat) (w : Nat × Nat) (k : Nat) :
    hlookup (addToEntry d j w) k
      = if j = k then (hlookup d k).map (fun v => (v.1 + w.1, v.2 + w.2))
        else hlookup d k := by
  induction d with
  | nil => by_cases hj : j = k <;> simp [addToEntry, hlookup, hj]
  | cons e rest ih =>
    obtain ⟨k2, v2⟩ := e
    by_cases h2 : k2 = j
    · subst h2
      by_cases hj : k2 = k
      · subst hj; simp [addToEntry, hlookup]
      · simp [addToEntry, hlookup, hj]
    · by_cases hk : k2 = k
      · subst hk
        have hj : ¬ j = k2 := fun hh => h2 hh.symm
        simp [addToEntry, h2, hlookup, hj]
      · simp [addToEntry, h2, hlookup, hk, ih]

theorem hlookup_mergeOne (d : Histogram) (k : Nat) (v : Nat × Nat) (j : Nat) :
    hlookup (mergeOne d k v) j
      = if k = j then
          (match hlookup d k with
           | some x => some (x.1 + v.1, x.2 + v.2)
           | none => some v)
        else hlookup d j := by
  unfold mergeOne
  rcases hd : hlookup d k with _ | x
  · simp only [hd, Option.isSome_none, Bool.false_eq_true, if_false]
    rw [hlookup_append_single]
    by_cases hk : k = j
    · subst hk; simp [hd]
    · simp only [if_neg hk]
      rcases hdj : hlookup d j with _ | y <;> simp [hdj, hk]
  · simp only [hd, Option.isSome_some, if_true]
    rw [hlookup_addToEntry]
    by_cases hk : k = j
    · subst hk; simp [hd]
    · simp [hk]

/-- Pointwise combination of two optional histogram cells: the value a key
gets in `d` after merging one more input that optionally holds that key. -/
def merge2 : Option (Nat × Nat) → Option (Nat × Nat) → Option (Nat × Nat)
  | none, b => b
  | some x, none => some x
  | some x, some y => some (x.1 + y.1, x.2 + y.2)

theorem merge2_none_left (b : Option (Nat × Nat)) : merge2 none b = b := rfl

theorem merge2_none_right (a : Option (Nat × Nat)) : merge2 a none = a := by
  cases a <;> rfl

theorem merge2_assoc (a b c : Option (Nat × Nat)) :
    merge2 (merge2 a b) c = merge2 a (merge2 b c) := by
  cases a <;> cases b <;> cases c <;>
    simp [merge2, Nat.add_assoc]

theorem merge2_comm (a b : Option (Nat × Nat)) :
    merge2 a b = merge2 b a := by
  cases a <;> cases b <;> simp [merge2, Nat.add_comm]

theorem hlookup_eq_none_of_not_mem (h : Histogram) (j : Nat) (hj : j ∉ keysOf h) :
    hlookup h j = none := by
  rcases hl : hlookup h j with _ | x
  · rfl
  · exact absurd ((hlookup_isSome_iff_mem h j).mp (by simp [hl])) hj

/-- One input's inner loop, seen through lookup: folding the entries of a
duplicate-free input `tr` into `d` merges `tr`'s cell for every key into
`d`'s cell for that key. -/
theorem hlookup_foldl_mergeOne (tr : Histogram) :
    ∀ d : Histogram, (keysOf tr).Nodup → ∀ j,
      hlookup (tr.foldl (fun d2 e => mergeOne d2 e.1 e.2) d) j
        = merge2 (hlookup d j) (hlookup tr j) := by
  induction tr with
  | nil => intro d _ j; simp [hlookup, merge2_none_right]
  | cons e rest ih =>
    intro d hnd j
    obtain ⟨k, v⟩ := e
    simp only [keysOf, List.map_cons, List.nodup_cons] at hnd
    obtain ⟨hk_not, hnd2⟩ := hnd
    rw [List.foldl_cons]
    rw [ih (mergeOne d k v) hnd2 j]
    by_cases hkj : k = j
    · subst hkj
      have h1 : hlookup rest k = none :=
        hlookup_eq_none_of_not_mem rest k hk_not
      rw [h1, merge2_none_right, hlookup_mergeOne]
      simp only [if_pos rfl]
      simp [hlookup]
      cases hlookup d k <;> simp [merge2]
    · rw [hlookup_mergeOne]
      simp only [if_neg hkj]
      have : hlookup ((k, v) :: rest) j = hlookup rest j := by
        simp [hlookup, hkj]
      rw [this]

theorem hlookup_merge_trials_foldl (trs : List Histogram)
    (hnd : ∀ tr ∈ trs, (keysOf tr).Nodup) (j : Nat) :
    hlookup (merge_trials trs) j
      = trs.foldl (fun acc tr => merge2 acc (hlookup tr j)) none := by
  unfold merge_trials
  have main : ∀ (l : List Histogram), (∀ tr ∈ l, (keysOf tr).Nodup) → ∀ d : Histogram,
      hlookup (l.foldl (fun d tr => tr.foldl (fun d2 e => mergeOne d2 e.1 e.2) d) d) j
        = l.foldl (fun acc tr => merge2 acc (hlookup tr j)) (hlookup d j) := by
    intro l
    induction l with
    | nil => intro _ d; simp
    | cons t ts ih =>
      intro hl d
      rw [List.foldl_cons, List.foldl_cons]
      rw [ih (fun tr htr => hl tr (List.mem_cons_of_mem t htr))]
      rw [hlookup_foldl_mergeOne t d (hl t (List.mem_cons_self t ts)) j]
  rw [main trs hnd []]
  rfl

/-- Element-wise-sum description of the merged histogram, written from the
spec: a key is present iff some input contains it, and its merged value is
the componentwise sum over all inputs, a missing key counting as (0,0). -/
def mergedSpec (trs : List Histogram) (k : Nat) : Option (Nat × Nat) :=
  if trs.any (fun tr => (hlookup tr k).isSome) then
    some ((trs.map (fun tr => ((hlookup tr k).getD (0, 0)).1)).sum,
          (trs.map (fun tr => ((hlookup tr k).getD (0, 0)).2)).sum)
  else none

theorem foldl_merge2_generalize (k : Nat) (trs : List Histogram) :
    ∀ a : Option (Nat × Nat),
      trs.foldl (fun acc tr => merge2 acc (hlookup tr k)) a
        = merge2 a (trs.foldl (fun acc tr => merge2 acc (hlookup tr k)) none) := by
  induction trs with
  | nil => intro a; simp [merge2_none_right]
  | cons t ts ih =>
    intro a
    rw [List.foldl_cons, List.foldl_cons]
    rw [ih (merge2 a (hlookup t k)), ih (merge2 none (hlookup t k))]
    rw [merge2_none_left, merge2_assoc]

theorem foldl_merge2_eq_mergedSpec (trs : List Histogram) (k : Nat) :
    trs.foldl (fun acc tr => merge2 acc (hlookup tr k)) none = mergedSpec trs k := by
  induction trs with
  | nil => simp [mergedSpec]
  | cons t ts ih =>
    rw [List.foldl_cons, merge2_none_left, foldl_merge2_generalize, ih]
    unfold mergedSpec
    rcases ht : hlookup t k with _ | x
    · simp only [List.any_cons, ht, Option.isSome_none, Bool.false_or,
        List.map_cons, List.sum_cons, Option.getD_none]
      by_cases hts : ts.any (fun tr => (hlookup tr k).isSome) = true <;>
        simp [hts, merge2]
    · simp only [List.any_cons, ht, Option.isSome_some, Bool.true_or,
        List.map_cons, List.sum_cons, Option.getD_some, if_true]
      by_cases hts : ts.any (fun tr => (hlookup tr k).isSome) = true
      · simp [hts, merge2]
      · have hall : ∀ tr ∈ ts, hlookup tr k = none := by
          intro tr htr
          rcases hl : hlookup tr k with _ | y
          · rfl
          · exact absurd (List.any_eq_true.mpr ⟨tr, htr, by simp [hl]⟩) hts
        have hz1 : (ts.map (fun tr => ((hlookup tr k).getD ((0 : Nat), (0 : Nat))).1)).sum = 0 := by
          rw [List.sum_eq_zero]
          intro x hx
          obtain ⟨tr, htr, hxx⟩ := List.mem_map.mp hx
          rw [hall tr htr] at hxx
          simp at hxx
          omega
        have hz2 : (ts.map (fun tr => ((hlookup tr k).getD ((0 : Nat), (0 : Nat))).2)).sum = 0 := by
          rw [List.sum_eq_zero]
          intro x hx
          obtain ⟨tr, htr, hxx⟩ := List.mem_map.mp hx
          rw [hall tr htr] at hxx
          simp at hxx
          omega
        rw [if_neg hts, merge2_none_right, hz1, hz2]
        simp

/-- Property of the Result Merger asserted by claim C2, for a given list
of input histograms: every key's merged cell is the element-wise sum of
the inputs' cells for that key (a missing key counting as (0,0)), and a
key is present in the merge exactly when it is present in some input. -/
def MergeElementwiseSpec (trs : List Histogram) : Prop :=
  ∀ k, hlookup (merge_trials trs) k = mergedSpec trs k ∧
    ((hlookup (merge_trials trs) k).isSome = true ↔
      ∃ tr ∈ trs, (hlookup tr k).isSome = true)

/-- C2: for every finite sequence of (duplicate-free-keyed) histograms,
merge_trials returns their element-wise sum: its key set is the union of
the inputs' key sets, and each merged value is the pair of componentwise
sums over the inputs, missing keys counting as (0,0). -/
theorem C2_merge_elementwise (trs : List Histogram)
    (hnd : ∀ tr ∈ trs, (keysOf tr).Nodup) : MergeElementwiseSpec trs := by
  intro k
  have h1 : hlookup (merge_trials trs) k = mergedSpec trs k := by
    rw [hlookup_merge_trials_foldl trs hnd k, foldl_merge2_eq_mergedSpec]
  refine ⟨h1, ?_⟩
  rw [h1]
  unfold mergedSpec
  by_cases hany : trs.any (fun tr => (hlookup tr k).isSome) = true
  · simp only [hany, if_true, Option.isSome_some, true_iff]
    obtain ⟨tr, htr, hs⟩ := List.any_eq_true.mp hany
    exact ⟨tr, htr, hs⟩
  · simp only [hany, if_false, Option.isSome_none]
    constructor
    · intro hc; exact absurd hc (by simp)
    · intro ⟨tr, htr, hs⟩
      exact absurd (List.any_eq_true.mpr ⟨tr, htr, hs⟩) hany

/-! Key sets of merged histograms. -/

theorem keysOf_addToEntry (d : Histogram) (j : Nat) (w : Nat × Nat) :
    keysOf (addToEntry d j w) = keysOf d := by
  induction d with
  | nil => rfl
  | cons e rest ih =>
    obtain ⟨k, v⟩ := e
    by_cases hk : k = j
    · simp [addToEntry, hk, keysOf]
    · simp [addToEntry, hk, keysOf] at ih ⊢
      exact ih

theorem keysOf_append_single (d : Histogram) (k : Nat) (v : Nat × Nat) :
    keysOf (d ++ [(k, v)]) = keysOf d ++ [k] := by
  simp [keysOf]

theorem nodup_mergeOne (d : Histogram) (k : Nat) (v : Nat × Nat)
    (hd : (keysOf d).Nodup) : (keysOf (mergeOne d k v)).Nodup := by
  unfold mergeOne
  by_cases h : (hlookup d k).isSome = true
  · simpa [h, keysOf_addToEntry] using hd
  · simp only [h, if_false, Bool.false_eq_true]
    rw [keysOf_append_single, List.nodup_append]
    refine ⟨hd, List.nodup_singleton k, ?_⟩
    intro a ha hb
    rw [List.mem_singleton] at hb
    subst hb
    exact h ((hlookup_isSome_iff_mem d a).mpr ha)

theorem nodup_foldl_mergeOne (tr : Histogram) :
    ∀ d : Histogram, (keysOf d).Nodup →
      (keysOf (tr.foldl (fun d2 e => mergeOne d2 e.1 e.2) d)).Nodup := by
  induction tr with
  | nil => intro d hd; exact hd
  | cons e rest ih =>
    intro d hd
    rw [List.foldl_cons]
    exact ih _ (nodup_mergeOne d e.1 e.2 hd)

/-- Keys of a merged histogram never repeat (it embeds a Python dict). -/
theorem nodup_merge_trials (trs : List Histogram) :
    (keysOf (merge_trials trs)).Nodup := by
  unfold merge_trials
  have main : ∀ l : List Histogram, ∀ d : Histogram, (keysOf d).Nodup →
      (keysOf (l.foldl (fun d tr => tr.foldl (fun d2 e => mergeOne d2 e.1 e.2) d) d)).Nodup := by
    intro l
    induction l with
    | nil => intro d hd; exact hd
    | cons t ts ih =>
      intro d hd
      rw [List.foldl_cons]
      exact ih _ (nodup_foldl_mergeOne t d hd)
  exact main trs [] (by simp [keysOf])

theorem hlookup_merge_pair (a b : Histogram) (na : (keysOf a).Nodup)
    (nb : (keysOf b).Nodup) (j : Nat) :
    hlookup (merge_trials [a, b]) j = merge2 (hlookup a j) (hlookup b j) := by
  rw [hlookup_merge_trials_foldl [a, b] ?h j]
  case h =>
    intro tr htr
    simp only [List.mem_cons, List.not_mem_nil, or_false] at htr
    rcases htr with rfl | rfl
    · exact na
    · exact nb
  simp [merge2_none_left]

theorem hlookup_merge_triple (a b c : Histogram) (na : (keysOf a).Nodup)
    (nb : (keysOf b).Nodup) (nc : (keysOf c).Nodup) (j : Nat) :
    hlookup (merge_trials [a, b, c]) j
      = merge2 (merge2 (hlookup a j) (hlookup b j)) (hlookup c j) := by
  rw [hlookup_merge_trials_foldl [a, b, c] ?h j]
  case h =>
    intro tr htr
    simp only [List.mem_cons, List.not_mem_nil, or_false] at htr
    rcases htr with rfl | rfl | rfl
    · exact na
    · exact nb
    · exact nc
  simp [merge2_none_left]

/-- Order-independence properties of the Result Merger asserted by claim
C3, for three input histograms: nested merges associate, merging a list in
any permuted order gives the same histogram, merging two inputs commutes,
and the empty histogram is an identity. -/
def MergeOrderIndependentSpec (h1 h2 h3 : Histogram) : Prop :=
  HistEq (merge_trials [merge_trials [h1, h2], h3])
    (merge_trials [h1, merge_trials [h2, h3]]) ∧
  HistEq (merge_trials [merge_trials [h1, h2], h3]) (merge_trials [h1, h2, h3]) ∧
  (∀ l : List Histogram, l.Perm [h1, h2, h3] →
    HistEq (merge_trials l) (merge_trials [h1, h2, h3])) ∧
  HistEq (merge_trials [h1, h2]) (merge_trials [h2, h1]) ∧
  HistEq (merge_trials [h1, []]) h1 ∧
  HistEq (merge_trials [[], h1]) h1

/-- C3: histogram merging is order-independent: associative, commutative,
invariant under permutation of the input list, and the empty histogram is
an identity (all with respect to dict equality, i.e. equality of every
key's value). -/
theorem C3_merge_order_independent (h1 h2 h3 : Histogram)
    (n1 : (keysOf h1).Nodup) (n2 : (keysOf h2).Nodup) (n3 : (keysOf h3).Nodup) :
    MergeOrderIndependentSpec h1 h2 h3 := by
  have n12 : (keysOf (merge_trials [h1, h2])).Nodup := nodup_merge_trials _
  have n23 : (keysOf (merge_trials [h2, h3])).Nodup := nodup_merge_trials _
  refine ⟨?assoc, ?flat, ?perm, ?comm, ?idr, ?idl⟩
  case assoc =>
    intro j
    rw [hlookup_merge_pair _ _ n12 n3 j, hlookup_merge_pair _ _ n1 n23 j,
      hlookup_merge_pair _ _ n1 n2 j, hlookup_merge_pair _ _ n2 n3 j,
      merge2_assoc]
  case flat =>
    intro j
    rw [hlookup_merge_pair _ _ n12 n3 j, hlookup_merge_pair _ _ n1 n2 j,
      hlookup_merge_triple _ _ _ n1 n2 n3 j]
  case perm =>
    intro l hperm j
    have hmem3 : ∀ tr ∈ [h1, h2, h3], (keysOf tr).Nodup := by
      intro tr htr
      simp only [List.mem_cons, List.not_mem_nil, or_false] at htr
      rcases htr with rfl | rfl | rfl
      · exact n1
      · exact n2
      · exact n3
    have hmem : ∀ tr ∈ l, (keysOf tr).Nodup :=
      fun tr htr => hmem3 tr (hperm.mem_iff.mp htr)
    rw [hlookup_merge_trials_foldl l hmem j,
      hlookup_merge_trials_foldl [h1, h2, h3] hmem3 j]
    exact hperm.foldl_eq'
      (fun x _hx y _hy z => by rw [merge2_assoc, merge2_assoc, merge2_comm (hlookup x j)])
      none
  case comm =>
    intro j
    rw [hlookup_merge_pair _ _ n1 n2 j, hlookup_merge_pair _ _ n2 n1 j, merge2_comm]
  case idr =>
    intro j
    rw [hlookup_merge_pair _ _ n1 (by simp [keysOf]) j]
    simp [hlookup, merge2_none_right]
  case idl =>
    intro j
    rw [hlookup_merge_pair _ _ (by simp [keysOf]) n1 j]
    simp [hlookup, merge2_none_left]

/-- Witness for C3 on concrete histograms. -/
theorem C3_merge_order_independent_witness :
    ((keysOf [((1 : Nat), (2 : Nat), (0 : Nat))]).Nodup ∧
     (keysOf [((1 : Nat), (0 : Nat), (1 : Nat)), (2, 3, 1)]).Nodup ∧
     (keysOf [((3 : Nat), (1 : Nat), (1 : Nat))]).Nodup) ∧
    MergeOrderIndependentSpec [(1, 2, 0)] [(1, 0, 1), (2, 3, 1)] [(3, 1, 1)] :=
  ⟨⟨by decide, by decide, by decide⟩,
    C3_merge_order_independent [(1, 2, 0)] [(1, 0, 1), (2, 3, 1)] [(3, 1, 1)]
      (by decide) (by decide) (by decide)⟩

/-! Flip-count accounting: every iteration of the trial loop records
exactly one flip, and merging adds the counts. -/

theorem totalFlips_append_single (d : Histogram) (k : Nat) (v : Nat × Nat) :
    totalFlips (d ++ [(k, v)]) = totalFlips d + (v.1 + v.2) := by
  simp [totalFlips]

theorem totalFlips_addToEntry (d : Histogram) (j : Nat) (w : Nat × Nat) :
    totalFlips (addToEntry d j w)
      = totalFlips d + (if (hlookup d j).isSome then w.1 + w.2 else 0) := by
  induction d with
  | nil => simp [addToEntry, totalFlips, hlookup]
  | cons e rest ih =>
    obtain ⟨k, v⟩ := e
    by_cases hk : k = j
    · subst hk
      simp [addToEntry, totalFlips, hlookup]
      omega
    · simp [addToEntry, hk, totalFlips, hlookup] at ih ⊢
      omega

theorem totalFlips_ensureEntry (h : Histogram) (c : Nat) :
    totalFlips (ensureEntry h c) = totalFlips h := by
  unfold ensureEntry
  by_cases hc : (hlookup h c).isSome = true <;> simp [hc, totalFlips_append_single]

theorem hlookup_ensureEntry_isSome (h : Histogram) (c : Nat) :
    (hlookup (ensureEntry h c) c).isSome = true := by
  unfold ensureEntry
  by_cases hc : (hlookup h c).isSome = true
  · simp [hc]
  · simp [hc, hlookup_append_single]

theorem totalFlips_step (h : Histogram) (c : Nat) (w : Nat × Nat) :
    totalFlips (addToEntry (ensureEntry h c) c w) = totalFlips h + (w.1 + w.2) := by
  rw [totalFlips_addToEntry, hlookup_ensureEntry_isSome, totalFlips_ensureEntry]
  simp

theorem totalFlips_perform_trialsAux (flips : List Bool) :
    ∀ (c : Nat) (h : Histogram),
      totalFlips (perform_trialsAux flips c h) = totalFlips h + flips.length := by
  induction flips with
  | nil => intro c h; simp [perform_trialsAux]
  | cons b rest ih =>
    intro c h
    cases b
    · simp only [perform_trialsAux, Bool.false_eq_true, if_false]
      rw [ih, totalFlips_step]
      simp
      omega
    · simp only [perform_trialsAux, if_true]
      rw [ih, totalFlips_step]
      simp
      omega

theorem totalFlips_mergeOne (d : Histogram) (k : Nat) (v : Nat × Nat) :
    totalFlips (mergeOne d k v) = totalFlips d + (v.1 + v.2) := by
  unfold mergeOne
  by_cases h : (hlookup d k).isSome = true
  · rw [if_pos h, totalFlips_addToEntry, if_pos h]
  · rw [if_neg h, totalFlips_append_single]

theorem totalFlips_foldl_mergeOne (tr : Histogram) :
    ∀ d : Histogram,
      totalFlips (tr.foldl (fun d2 e => mergeOne d2 e.1 e.2) d)
        = totalFlips d + totalFlips tr := by
  induction tr with
  | nil => intro d; simp [totalFlips]
  | cons e rest ih =>
    intro d
    rw [List.foldl_cons, ih, totalFlips_mergeOne]
    simp [totalFlips]
    omega

/-- Merging adds flip totals, with no assumption on the inputs. -/
theorem totalFlips_merge_trials (trs : List Histogram) :
    totalFlips (merge_trials trs) = (trs.map totalFlips).sum := by
  unfold merge_trials
  have main : ∀ (l : List Histogram) (d : Histogram),
      totalFlips (l.foldl (fun d tr => tr.foldl (fun d2 e => mergeOne d2 e.1 e.2) d) d)
        = totalFlips d + (l.map totalFlips).sum := by
    intro l
    induction l with
    | nil => intro d; simp
    | cons t ts ih =>
      intro d
      rw [List.foldl_cons, ih, totalFlips_foldl_mergeOne]
      simp
      omega
  rw [main trs []]
  simp [totalFlips]

/-- C4: for every number of trials and every sequence of flip outcomes,
the Trial Runner's histogram records exactly one flip per trial, so the
sum of heads + tails over all keys equals the number of trials; with zero
trials the histogram is empty; and merging the histograms of two 5-trial
batches (the [5,5] split of 10 trials) records 10 flips in total. -/
theorem C4_trial_runner_total (flips : List Bool) :
    totalFlips (perform_trials flips) = flips.length ∧
    (flips.length = 0 → perform_trials flips = []) ∧
    (∀ f1 f2 : List Bool, f1.length = 5 → f2.length = 5 →
      totalFlips (merge_trials [perform_trials f1, perform_trials f2]) = 10) := by
  refine ⟨?_, ?_, ?_⟩
  · unfold perform_trials
    rw [totalFlips_perform_trialsAux]
    simp [totalFlips]
  · intro h0
    have : flips = [] := List.eq_nil_of_length_eq_zero h0
    subst this
    rfl
  · intro f1 f2 h1 h2
    rw [totalFlips_merge_trials]
    have t1 : totalFlips (perform_trials f1) = 5 := by
      unfold perform_trials
      rw [totalFlips_perform_trialsAux]
      simp [totalFlips, h1]
    have t2 : totalFlips (perform_trials f2) = 5 := by
      unfold perform_trials
      rw [totalFlips_perform_trialsAux]
      simp [totalFlips, h2]
    simp [t1, t2]

/-- Witness for C4: two concrete 5-flip batches and the 0-trial case. -/
theorem C4_trial_runner_total_witness :
    ([true, true, false, true, false].length = 5 ∧
     [false, false, false, false, false].length = 5 ∧ ([] : List Bool).length = 0) ∧
    totalFlips (merge_trials [perform_trials [true, true, false, true, false],
      perform_trials [false, false, false, false, false]]) = 10 ∧
    perform_trials [] = [] :=
  ⟨⟨rfl, rfl, rfl⟩,
    (C4_trial_runner_total []).2.2 [true, true, false, true, false]
      [false, false, false, false, false] rfl rfl,
    (C4_trial_runner_total []).2.1 rfl⟩

/-! Key contiguity of a trial run.  The streak counter walks 1, 2, 3, ...
inside a heads streak and resets to 1 on tails, so keys are created in
increasing order with no gaps. -/

/-- Maximum value taken by the streak counter over the remaining flips,
starting from counter value `c` (0 when no flips remain). -/
def maxCounterAux : List Bool → Nat → Nat
  | [], _ => 0
  | b :: rest, c => max c (maxCounterAux rest (if b then c + 1 else 1))

/-- Modelled from the spec glossary: a streak is a maximal run of
consecutive heads, and maxStreak is the longest such run in the flip
sequence, tracked as (current run, best completed-or-running run). -/
def maxStreakAux : List Bool → Nat → Nat → Nat
  | [], cur, best => max cur best
  | b :: rest, cur, best =>
    if b then maxStreakAux rest (cur + 1) best
    else maxStreakAux rest 0 (max cur best)

/-- Modelled from the spec glossary: the maximum streak length observed in
a flip sequence. -/
def maxStreak (flips : List Bool) : Nat := maxStreakAux flips 0 0

theorem length_addToEntry (d : Histogram) (j : Nat) (w : Nat × Nat) :
    (addToEntry d j w).length = d.length := by
  induction d with
  | nil => rfl
  | cons e rest ih =>
    obtain ⟨k, v⟩ := e
    by_cases hk : k = j <;> simp [addToEntry, hk, ih]

/-- Contiguity invariant: the key list is exactly 1, 2, ..., length. -/
def KeysContig (h : Histogram) : Prop := keysOf h = List.range' 1 h.length

theorem keysContig_step (h : Histogram) (c : Nat) (hk : KeysContig h)
    (h1 : 1 ≤ c) (h2 : c ≤ h.length + 1) (w : Nat × Nat) :
    KeysContig (addToEntry (ensureEntry h c) c w) ∧
    (addToEntry (ensureEntry h c) c w).length = max h.length c := by
  unfold KeysContig at hk ⊢
  have hiff : c ∈ List.range' 1 h.length ↔ 1 ≤ c ∧ c < 1 + h.length :=
    List.mem_range'_1
  by_cases hcs : (hlookup h c).isSome = true
  · have hcmem : c ∈ keysOf h := (hlookup_isSome_iff_mem h c).mp hcs
    rw [hk] at hcmem
    have hcl : c < 1 + h.length := (hiff.mp hcmem).2
    rw [ensureEntry, if_pos hcs]
    constructor
    · rw [keysOf_addToEntry, length_addToEntry, hk]
    · rw [length_addToEntry]
      omega
  · have hnotmem : c ∉ keysOf h := fun hm => hcs ((hlookup_isSome_iff_mem h c).mpr hm)
    rw [hk] at hnotmem
    have hceq : c = h.length + 1 := by
      rcases Nat.lt_or_ge c (1 + h.length) with hlt | hge
      · exact absurd (hiff.mpr ⟨h1, hlt⟩) hnotmem
      · omega
    rw [ensureEntry, if_neg hcs]
    have hrange : List.range' 1 (h.length + 1) = List.range' 1 h.length ++ [1 + h.length] := by
      rw [List.range'_concat]
      simp
    constructor
    · rw [keysOf_addToEntry, keysOf_append_single, length_addToEntry,
        List.length_append, hk]
      simp only [List.length_cons, List.length_nil]
      rw [hrange]
      congr 1
      · congr 1
        omega
    · rw [length_addToEntry, List.length_append]
      simp
      omega

theorem perform_trialsAux_invariant (flips : List Bool) :
    ∀ (c : Nat) (h : Histogram), KeysContig h → 1 ≤ c → c ≤ h.length + 1 →
      KeysContig (perform_trialsAux flips c h) ∧
      (perform_trialsAux flips c h).length = max h.length (maxCounterAux flips c) := by
  induction flips with
  | nil =>
    intro c h hk h1 h2
    exact ⟨hk, by simp [perform_trialsAux, maxCounterAux]⟩
  | cons b rest ih =>
    intro c h hk h1 h2
    cases b
    · simp only [perform_trialsAux, Bool.false_eq_true, if_false]
      obtain ⟨hk2, hl2⟩ := keysContig_step h c hk h1 h2 (0, 1)
      obtain ⟨hka, hla⟩ := ih 1 _ hk2 (by omega) (by omega)
      refine ⟨hka, ?_⟩
      rw [hla, hl2]
      simp only [maxCounterAux, Bool.false_eq_true, if_false]
      omega
    · simp only [perform_trialsAux, if_true]
      obtain ⟨hk2, hl2⟩ := keysContig_step h c hk h1 h2 (1, 0)
      obtain ⟨hka, hla⟩ := ih (c + 1) _ hk2 (by omega) (by rw [hl2]; omega)
      refine ⟨hka, ?_⟩
      rw [hla, hl2]
      simp only [maxCounterAux, if_true]
      omega

theorem keysContig_perform_trials (flips : List Bool) :
    KeysContig (perform_trials flips) ∧
    (perform_trials flips).length = maxCounterAux flips 1 := by
  obtain ⟨a, b⟩ := perform_trialsAux_invariant flips 1 []
    (by rfl) (Nat.le_refl 1) (by simp)
  refine ⟨a, ?_⟩
  unfold perform_trials
  rw [b]
  simp

theorem maxCounterAux_ge (b : Bool) (rest : List Bool) (c : Nat) :
    c ≤ maxCounterAux (b :: rest) c := by
  simp only [maxCounterAux]
  omega

/-- Connection between the counter maximum and the streak maximum: the
largest counter value at which a flip occurs is one more than the longest
heads run among all flips but the last. -/
theorem maxCounterAux_dropLast (l : List Bool) :
    ∀ cur best : Nat, l ≠ [] →
      max (best + 1) (maxCounterAux l (cur + 1))
        = 1 + maxStreakAux l.dropLast cur best := by
  induction l with
  | nil => intro cur best hne; exact absurd rfl hne
  | cons b rest ih =>
    intro cur best _
    rcases rest with _ | ⟨b2, rest2⟩
    · cases b <;> simp [maxCounterAux, maxStreakAux, List.dropLast] <;> omega
    · have hrest : (b2 :: rest2) ≠ ([] : List Bool) := by simp
      cases b
      · have hih := ih 0 (max cur best) hrest
        simp only [maxCounterAux, maxStreakAux, List.dropLast,
          Bool.false_eq_true, if_false, Nat.zero_add] at hih ⊢
        omega
      · have hih := ih (cur + 1) best hrest
        have hge := maxCounterAux_ge b2 rest2 (cur + 1 + 1)
        simp only [maxCounterAux, maxStreakAux, List.dropLast, if_true,
          Nat.zero_add] at hih hge ⊢
        omega

theorem maxCounter_eq_maxStreak_dropLast (flips : List Bool) (hne : flips ≠ []) :
    maxCounterAux flips 1 = 1 + maxStreak flips.dropLast := by
  have h := maxCounterAux_dropLast flips 0 0 hne
  simp only [Nat.zero_add] at h
  have hge : 1 ≤ maxCounterAux flips 1 := by
    cases flips with
    | nil => exact absurd rfl hne
    | cons b rest => exact maxCounterAux_ge b rest 1
  unfold maxStreak
  omega

/-- C5 counterexample: after the single flip sequence [tails], the
histogram has key 1 (the tail was recorded in bucket 1), yet the maximum
heads-streak length observed is 0, so the key set is not the integers
from 1 up to the maximum streak length. -/
theorem C5_counterexample :
    1 ∈ keysOf (perform_trials [false]) ∧ ¬ (1 ≤ maxStreak [false]) := by
  decide

/-- C5 (amended): the Trial Runner's key list is always exactly
1, 2, ..., length with no gaps (empty when no flips occur); the top key
equals one plus the longest heads run among all flips except the last
(the maximum value the streak counter attains at a flip), rather than the
maximum streak length observed in the run. -/
theorem C5_keys_contiguous (flips : List Bool) :
    keysOf (perform_trials flips) = List.range' 1 (perform_trials flips).length ∧
    (flips = [] → perform_trials flips = []) ∧
    (flips ≠ [] → (perform_trials flips).length = 1 + maxStreak flips.dropLast) := by
  obtain ⟨hk, hl⟩ := keysContig_perform_trials flips
  refine ⟨hk, ?_, ?_⟩
  · intro h0; subst h0; rfl
  · intro hne
    rw [hl, maxCounter_eq_maxStreak_dropLast flips hne]

/-- Witness for C5 (amended) on the flips [heads, heads, tails]. -/
theorem C5_keys_contiguous_witness :
    (keysOf (perform_trials [true, true, false]) =
      List.range' 1 (perform_trials [true, true, false]).length) ∧
    ([true, true, false] ≠ ([] : List Bool)) ∧
    (perform_trials [true, true, false]).length
      = 1 + maxStreak ([true, true, false].dropLast) :=
  ⟨(C5_keys_contiguous [true, true, false]).1, by decide,
    (C5_keys_contiguous [true, true, false]).2.2 (by decide)⟩

/-! Per-key effect of one loop iteration of the Trial Runner. -/

/-- One iteration (lazily create the cell for `counter`, then add `w`)
changes only the cell at key `counter`, adding `w` to its previous value
(or to (0,0) if the key was new). -/
theorem hlookup_step (h : Histogram) (c : Nat) (w : Nat × Nat) (k : Nat) :
    hlookup (addToEntry (ensureEntry h c) c w) k
      = if c = k then some (((hlookup h c).getD (0, 0)).1 + w.1,
                            ((hlookup h c).getD (0, 0)).2 + w.2)
        else hlookup h k := by
  rw [hlookup_addToEntry]
  by_cases hck : c = k
  · subst hck
    simp only [if_pos rfl]
    unfold ensureEntry
    by_cases hcs : (hlookup h c).isSome = true
    · rw [if_pos hcs]
      rcases hl : hlookup h c with _ | x
      · rw [hl] at hcs; simp at hcs
      · simp [hl]
    · have hnone : hlookup h c = none := Option.not_isSome_iff_eq_none.mp hcs
      rw [if_neg hcs, hlookup_append_single, hnone]
      simp
  · rw [if_neg hck, if_neg hck]
    unfold ensureEntry
    by_cases hcs : (hlookup h c).isSome = true
    · rw [if_pos hcs]
    · rw [if_neg hcs, hlookup_append_single, if_neg hck]
      rcases hl : hlookup h k with _ | x <;> simp [hl]

theorem perform_trialsAux_entries_pos (flips : List Bool) :
    ∀ (c : Nat) (h : Histogram),
      (∀ k v, hlookup h k = some v → 1 ≤ v.1 + v.2) →
      ∀ k v, hlookup (perform_trialsAux flips c h) k = some v → 1 ≤ v.1 + v.2 := by
  induction flips with
  | nil => intro c h hh k v hl; exact hh k v hl
  | cons b rest ih =>
    intro c h hh
    cases b
    · simp only [perform_trialsAux, Bool.false_eq_true, if_false]
      apply ih
      intro k v hl
      rw [hlookup_step] at hl
      by_cases hck : c = k
      · rw [if_pos hck] at hl
        have hv := (Option.some.injEq _ _).mp hl
        subst hv
        omega
      · rw [if_neg hck] at hl
        exact hh k v hl
    · simp only [perform_trialsAux, if_true]
      apply ih
      intro k v hl
      rw [hlookup_step] at hl
      by_cases hck : c = k
      · rw [if_pos hck] at hl
        have hv := (Option.some.injEq _ _).mp hl
        subst hv
        omega
      · rw [if_neg hck] at hl
        exact hh k v hl

theorem hlookup_of_mem_nodup (h : Histogram) (hnd : (keysOf h).Nodup) :
    ∀ e ∈ h, hlookup h e.1 = some e.2 := by
  induction h with
  | nil => intro e he; cases he
  | cons e2 rest ih =>
    intro e he
    obtain ⟨k, v⟩ := e2
    simp only [keysOf, List.map_cons, List.nodup_cons] at hnd
    obtain ⟨hknot, hnd2⟩ := hnd
    rcases List.mem_cons.mp he with rfl | hmem
    · simp [hlookup]
    · have hrest := ih (by simpa [keysOf] using hnd2) e hmem
      by_cases hk : k = e.1
      · exfalso
        apply hknot
        rw [hk]
        exact List.mem_map.mpr ⟨e, hmem, rfl⟩
      · simp [hlookup, hk, hrest]

theorem nodup_keys_perform_trials (flips : List Bool) :
    (keysOf (perform_trials flips)).Nodup := by
  rw [(keysContig_perform_trials flips).1]
  exact List.nodup_range' 1 (perform_trials flips).length 1 Nat.one_pos

/-- C10: every key present in a Trial Runner histogram has heads + tails
at least 1: the entry lazily created as (0,0) before a flip is always
incremented by that same flip, so no all-zero entry remains. -/
theorem C10_entries_positive (flips : List Bool) (e : Nat × Nat × Nat)
    (he : e ∈ perform_trials flips) : 1 ≤ e.2.1 + e.2.2 := by
  have hl : hlookup (perform_trials flips) e.1 = some e.2 :=
    hlookup_of_mem_nodup _ (nodup_keys_perform_trials flips) e he
  refine perform_trialsAux_entries_pos flips 1 [] ?base e.1 e.2 hl
  intro k v hv
  simp [hlookup] at hv

/-- Witness for C10 at the entry for key 1 after flips [heads, tails]. -/
theorem C10_entries_positive_witness :
    (((1, 1, 0) : Nat × Nat × Nat) ∈ perform_trials [true, false]) ∧
    1 ≤ ((1, 1, 0) : Nat × Nat × Nat).2.1 + ((1, 1, 0) : Nat × Nat × Nat).2.2 :=
  ⟨by decide, C10_entries_positive [true, false] (1, 1, 0) (by decide)⟩

/-! Heads-at-key-1 versus total tails.  A flip lands in bucket 1 exactly
when the counter is 1, i.e. at the start of the run or right after a
tail; this connects bucket 1 to the number of tails. -/

/-- Number of tails in a flip sequence. -/
def countTails : List Bool → Nat
  | [] => 0
  | b :: rest => (if b then 0 else 1) + countTails rest

/-- Number of flips processed while the streak counter equals 1, starting
from counter value `c`. -/
def countC1 : List Bool → Nat → Nat
  | [], _ => 0
  | b :: rest, c => (if c = 1 then 1 else 0) + countC1 rest (if b then c + 1 else 1)

theorem totalTails_append_single (d : Histogram) (k : Nat) (v : Nat × Nat) :
    totalTails (d ++ [(k, v)]) = totalTails d + v.2 := by
  simp [totalTails]

theorem totalTails_addToEntry (d : Histogram) (j : Nat) (w : Nat × Nat) :
    totalTails (addToEntry d j w)
      = totalTails d + (if (hlookup d j).isSome then w.2 else 0) := by
  induction d with
  | nil => simp [addToEntry, totalTails, hlookup]
  | cons e rest ih =>
    obtain ⟨k, v⟩ := e
    by_cases hk : k = j
    · subst hk
      simp [addToEntry, totalTails, hlookup]
      omega
    · simp [addToEntry, hk, totalTails, hlookup] at ih ⊢
      omega

theorem totalTails_ensureEntry (h : Histogram) (c : Nat) :
    totalTails (ensureEntry h c) = totalTails h := by
  unfold ensureEntry
  by_cases hc : (hlookup h c).isSome = true <;> simp [hc, totalTails_append_single]

theorem totalTails_step (h : Histogram) (c : Nat) (w : Nat × Nat) :
    totalTails (addToEntry (ensureEntry h c) c w) = totalTails h + w.2 := by
  rw [totalTails_addToEntry, hlookup_ensureEntry_isSome, totalTails_ensureEntry]
  simp

theorem totalTails_perform_trialsAux (flips : List Bool) :
    ∀ (c : Nat) (h : Histogram),
      totalTails (perform_trialsAux flips c h) = totalTails h + countTails flips := by
  induction flips with
  | nil => intro c h; simp [perform_trialsAux, countTails]
  | cons b rest ih =>
    intro c h
    cases b
    · simp only [perform_trialsAux, countTails, Bool.false_eq_true, if_false]
      rw [ih, totalTails_step]
      omega
    · simp only [perform_trialsAux, countTails, if_true]
      rw [ih, totalTails_step]
      omega

theorem at1_step (h : Histogram) (c : Nat) (w : Nat × Nat) :
    headsAt (addToEntry (ensureEntry h c) c w) 1
      + tailsAt (addToEntry (ensureEntry h c) c w) 1
    = headsAt h 1 + tailsAt h 1 + (if c = 1 then w.1 + w.2 else 0) := by
  unfold headsAt tailsAt
  rw [hlookup_step]
  by_cases hc1 : c = 1
  · subst hc1
    rw [if_pos rfl, if_pos rfl]
    simp only [Option.getD_some]
    omega
  · rw [if_neg hc1, if_neg hc1]
    omega

theorem at1_perform_trialsAux (flips : List Bool) :
    ∀ (c : Nat) (h : Histogram),
      headsAt (perform_trialsAux flips c h) 1 + tailsAt (perform_trialsAux flips c h) 1
        = headsAt h 1 + tailsAt h 1 + countC1 flips c := by
  induction flips with
  | nil => intro c h; simp [perform_trialsAux, countC1]
  | cons b rest ih =>
    intro c h
    cases b
    · simp only [perform_trialsAux, countC1, Bool.false_eq_true, if_false]
      rw [ih, at1_step]
      by_cases hc1 : c = 1 <;> simp [hc1] <;> try omega
    · simp only [perform_trialsAux, countC1, if_true]
      rw [ih, at1_step]
      by_cases hc1 : c = 1 <;> simp [hc1] <;> try omega

theorem countC1_eq (l : List Bool) :
    ∀ c : Nat, 1 ≤ c → l ≠ [] →
      countC1 l c = (if c = 1 then 1 else 0) + countTails l.dropLast := by
  induction l with
  | nil => intro c _ hne; exact absurd rfl hne
  | cons b rest ih =>
    intro c hc hne
    rcases rest with _ | ⟨b2, rest2⟩
    · cases b <;> simp [countC1, countTails, List.dropLast]
    · have hrest : (b2 :: rest2) ≠ ([] : List Bool) := by simp
      have hdl : (b :: b2 :: rest2).dropLast = b :: (b2 :: rest2).dropLast := rfl
      rw [hdl]
      cases b
      · have hih := ih 1 (Nat.le_refl 1) hrest
        rw [if_pos rfl] at hih
        rw [show countC1 (false :: b2 :: rest2) c
            = (if c = 1 then 1 else 0) + countC1 (b2 :: rest2) 1 from rfl]
        rw [hih]
        rw [show countTails (false :: (b2 :: rest2).dropLast)
            = 1 + countTails (b2 :: rest2).dropLast from rfl]
      · have hih := ih (c + 1) (by omega) hrest
        rw [if_neg (by omega : ¬ (c + 1 = 1))] at hih
        rw [show countC1 (true :: b2 :: rest2) c
            = (if c = 1 then 1 else 0) + countC1 (b2 :: rest2) (c + 1) from rfl]
        rw [hih]
        rw [show countTails (true :: (b2 :: rest2).dropLast)
            = 0 + countTails (b2 :: rest2).dropLast from rfl]

theorem getLast?_cons_isSome (b : Bool) (l : List Bool) :
    ((b :: l).getLast?).isSome = true := by
  induction l generalizing b with
  | nil => rfl
  | cons c rest ih =>
    rw [List.getLast?_cons_cons]
    exact ih c

theorem countTails_dropLast (l : List Bool) (hne : l ≠ []) :
    countTails l = countTails l.dropLast
      + (if l.getLast? = some false then 1 else 0) := by
  induction l with
  | nil => exact absurd rfl hne
  | cons b rest ih =>
    rcases rest with _ | ⟨b2, rest2⟩
    · cases b <;> simp [countTails, List.dropLast, List.getLast?]
    · have hrest : (b2 :: rest2) ≠ ([] : List Bool) := by simp
      have hih := ih hrest
      have hdl : (b :: b2 :: rest2).dropLast = b :: (b2 :: rest2).dropLast := rfl
      rw [hdl, List.getLast?_cons_cons]
      cases b
      · rw [show countTails (false :: b2 :: rest2) = 1 + countTails (b2 :: rest2) from rfl,
          show countTails (false :: (b2 :: rest2).dropLast)
            = 1 + countTails (b2 :: rest2).dropLast from rfl, hih]
        omega
      · rw [show countTails (true :: b2 :: rest2) = 0 + countTails (b2 :: rest2) from rfl,
          show countTails (true :: (b2 :: rest2).dropLast)
            = 0 + countTails (b2 :: rest2).dropLast from rfl, hih]
        omega

/-- Per-run identity: heads + tails in bucket 1 equals the total number
of tails, plus one if the run ends mid-streak (last flip heads). -/
theorem run_at1_identity (flips : List Bool) :
    headsAt (perform_trials flips) 1 + tailsAt (perform_trials flips) 1
      = totalTails (perform_trials flips)
        + (if flips.getLast? = some true then 1 else 0) := by
  rcases flips with _ | ⟨b, rest⟩
  · simp [perform_trials, perform_trialsAux, headsAt, tailsAt, totalTails,
      hlookup, List.getLast?]
  · have h1 := at1_perform_trialsAux (b :: rest) 1 []
    have h2 := totalTails_perform_trialsAux (b :: rest) 1 []
    have h3 := countC1_eq (b :: rest) 1 (Nat.le_refl 1) (by simp)
    rw [if_pos rfl] at h3
    have h4 := countTails_dropLast (b :: rest) (by simp)
    have h5 := getLast?_cons_isSome b rest
    unfold perform_trials
    rcases hgl : (b :: rest).getLast? with _ | bb
    · rw [hgl] at h5; simp at h5
    · rw [hgl] at h4
      cases bb
      · rw [if_pos rfl] at h4
        rw [if_neg (by simp)]
        simp only [headsAt, tailsAt, totalTails, hlookup, Option.getD_none,
          List.map_nil, List.sum_nil] at h1 h2 ⊢
        omega
      · rw [if_neg (by simp)] at h4
        rw [if_pos rfl]
        simp only [headsAt, tailsAt, totalTails, hlookup, Option.getD_none,
          List.map_nil, List.sum_nil] at h1 h2 ⊢
        omega

/-! Additivity of the per-key cells and the tails total under merging. -/

theorem getD_hlookup_merge (trs : List Histogram)
    (hnd : ∀ tr ∈ trs, (keysOf tr).Nodup) (k : Nat) :
    (hlookup (merge_trials trs) k).getD (0, 0)
      = ((trs.map (fun tr => ((hlookup tr k).getD (0, 0)).1)).sum,
         (trs.map (fun tr => ((hlookup tr k).getD (0, 0)).2)).sum) := by
  rw [hlookup_merge_trials_foldl trs hnd k, foldl_merge2_eq_mergedSpec]
  unfold mergedSpec
  by_cases hany : trs.any (fun tr => (hlookup tr k).isSome) = true
  · rw [if_pos hany]
    rfl
  · rw [if_neg hany]
    have hall : ∀ tr ∈ trs, hlookup tr k = none := by
      intro tr htr
      rcases hl : hlookup tr k with _ | y
      · rfl
      · exact absurd (List.any_eq_true.mpr ⟨tr, htr, by simp [hl]⟩) hany
    have hz1 : (trs.map (fun tr => ((hlookup tr k).getD ((0 : Nat), (0 : Nat))).1)).sum = 0 := by
      rw [List.sum_eq_zero]
      intro x hx
      obtain ⟨tr, htr, hxx⟩ := List.mem_map.mp hx
      rw [hall tr htr] at hxx
      simp at hxx
      omega
    have hz2 : (trs.map (fun tr => ((hlookup tr k).getD ((0 : Nat), (0 : Nat))).2)).sum = 0 := by
      rw [List.sum_eq_zero]
      intro x hx
      obtain ⟨tr, htr, hxx⟩ := List.mem_map.mp hx
      rw [hall tr htr] at hxx
      simp at hxx
      omega
    rw [hz1, hz2]
    rfl

theorem headsAt_merge (trs : List Histogram)
    (hnd : ∀ tr ∈ trs, (keysOf tr).Nodup) (k : Nat) :
    headsAt (merge_trials trs) k = (trs.map (fun tr => headsAt tr k)).sum := by
  unfold headsAt
  rw [getD_hlookup_merge trs hnd k]

theorem tailsAt_merge (trs : List Histogram)
    (hnd : ∀ tr ∈ trs, (keysOf tr).Nodup) (k : Nat) :
    tailsAt (merge_trials trs) k = (trs.map (fun tr => tailsAt tr k)).sum := by
  unfold tailsAt
  rw [getD_hlookup_merge trs hnd k]

theorem totalTails_mergeOne (d : Histogram) (k : Nat) (v : Nat × Nat) :
    totalTails (mergeOne d k v) = totalTails d + v.2 := by
  unfold mergeOne
  by_cases h : (hlookup d k).isSome = true
  · rw [if_pos h, totalTails_addToEntry, if_pos h]
  · rw [if_neg h, totalTails_append_single]

theorem totalTails_merge_trials (trs : List Histogram) :
    totalTails (merge_trials trs) = (trs.map totalTails).sum := by
  unfold merge_trials
  have inner : ∀ (tr : Histogram) (d : Histogram),
      totalTails (tr.foldl (fun d2 e => mergeOne d2 e.1 e.2) d)
        = totalTails d + totalTails tr := by
    intro tr
    induction tr with
    | nil => intro d; simp [totalTails]
    | cons e rest ih =>
      intro d
      rw [List.foldl_cons, ih, totalTails_mergeOne]
      simp [totalTails]
      omega
  have main : ∀ (l : List Histogram) (d : Histogram),
      totalTails (l.foldl (fun d tr => tr.foldl (fun d2 e => mergeOne d2 e.1 e.2) d) d)
        = totalTails d + (l.map totalTails).sum := by
    intro l
    induction l with
    | nil => intro d; simp
    | cons t ts ih =>
      intro d
      rw [List.foldl_cons, ih, inner]
      simp
      omega
  rw [main trs []]
  simp [totalTails]

/-- C6 counterexample: run the pipeline with one worker on the single
flip sequence [tails].  The merged histogram is ((1, 0, 1)): heads at
key 1 is 0, but the total number of tails over all keys is 1, so the
claimed equality heads@1 = total tails fails. -/
theorem C6_counterexample :
    headsAt (merge_trials [perform_trials [false]]) 1
      ≠ totalTails (merge_trials [perform_trials [false]]) := by
  decide

/-- C6 (amended): for any list of per-worker flip sequences, the merged
histogram satisfies heads@1 + tails@1 = total tails + (number of workers
whose flip sequence is nonempty and ends in heads).  The claim's equality
heads@1 = total tails does not hold: bucket 1 heads counts streak starts,
and each is matched by a tail landing in a bucket ≥ 2 or by a run ending
mid-streak, while tails landing in bucket 1 have no matching bucket-1
head. -/
theorem sum_at1_identity (flipss : List (List Bool)) :
    (flipss.map (fun f => headsAt (perform_trials f) 1)).sum
      + (flipss.map (fun f => tailsAt (perform_trials f) 1)).sum
    = (flipss.map (fun f => totalTails (perform_trials f))).sum
      + (flipss.map (fun f => if f.getLast? = some true then 1 else 0)).sum := by
  induction flipss with
  | nil => simp
  | cons f fs ih =>
    simp only [List.map_cons, List.sum_cons]
    have hrun := run_at1_identity f
    omega

theorem C6_heads1_identity (flipss : List (List Bool)) :
    headsAt (merge_trials (flipss.map perform_trials)) 1
      + tailsAt (merge_trials (flipss.map perform_trials)) 1
    = totalTails (merge_trials (flipss.map perform_trials))
      + (flipss.map (fun f => if f.getLast? = some true then 1 else 0)).sum := by
  have hnd : ∀ tr ∈ flipss.map perform_trials, (keysOf tr).Nodup := by
    intro tr htr
    obtain ⟨f, hf, rfl⟩ := List.mem_map.mp htr
    exact nodup_keys_perform_trials f
  rw [headsAt_merge _ hnd 1, tailsAt_merge _ hnd 1, totalTails_merge_trials]
  simp only [List.map_map, Function.comp_def]
  have hsum := sum_at1_identity flipss
  omega

/-! Embedding of main (lines 95-145).  The file system is abstracted by a
flag saying whether the output path names an existing file; randomness by
one flip stream per worker.  The returned rows model the CSV body; an
error models the raised exception, with nothing written. -/

/-- Maximum key of the merged histogram, `max(merged_results.keys())`. -/
def maxKey (h : Histogram) : Nat := (keysOf h).foldr max 0

/-- Rows written to the CSV: one row per chain length from 1 to the
maximum key, missing lengths reported via `merged_results.get(i, [0, 0])`. -/
def writeRows (merged : Histogram) : List (Nat × Nat × Nat) :=
  (List.range' 1 (maxKey merged)).map (fun i => (i, headsAt merged i, tailsAt merged i))

/-- First `n` outcomes of a worker's flip stream. -/
def flipsFor (s : Nat → Bool) (n : Nat) : List Bool := (List.range n).map s

/-- Message of the exception raised when the output file already exists. -/
def alreadyExistsMsg (out_file : String) : String :=
  "File " ++ out_file ++ " already exists - select a new destination"

/-- Embedding of main: the existing-file check comes first and aborts
before any batch is split, any trial is run or any row is written;
otherwise the batches are run and merged and the rows are produced. -/
def mainModel (out_file : String) (file_exists : Bool) (num_trials num_workers : Nat)
    (flips : Nat → Nat → Bool) : Except String (List (Nat × Nat × Nat)) :=
  if file_exists then Except.error (alreadyExistsMsg out_file)
  else
    let results := (yield_worker_batch_sizes num_trials num_workers).enum.map
      (fun p => perform_trials (flipsFor (flips p.1) p.2))
    Except.ok (writeRows (merge_trials results))

/-- Fail-fast property of main asserted by claim C7: the run errors
exactly when the output file exists; the error is the already-exists
message, is the same whatever work was requested (nothing is attempted
first), and carries no rows; when the file does not exist the run
succeeds with rows. -/
def FailFastSpec (out_file : String) (num_trials num_workers : Nat)
    (flips : Nat → Nat → Bool) : Prop :=
  (∀ fe : Bool,
    (∃ e, mainModel out_file fe num_trials num_workers flips = Except.error e)
      ↔ fe = true) ∧
  mainModel out_file true num_trials num_workers flips
    = Except.error (alreadyExistsMsg out_file) ∧
  (∀ (n2 w2 : Nat) (flips2 : Nat → Nat → Bool),
    mainModel out_file true n2 w2 flips2
      = mainModel out_file true num_trials num_workers flips) ∧
  (∃ rows, mainModel out_file false num_trials num_workers flips = Except.ok rows)

/-- C7: main raises the fatal already-exists error if and only if the
output path names an existing file, and it does so before performing any
trials and before writing anything, so on this error no output is
written and no partial work is observable. -/
theorem C7_fail_fast (out_file : String) (n w : Nat) (flips : Nat → Nat → Bool) :
    FailFastSpec out_file n w flips := by
  refine ⟨?_, rfl, fun n2 w2 flips2 => rfl, ⟨_, rfl⟩⟩
  intro fe
  cases fe
  · simp [mainModel]
  · simp [mainModel]

/-! Machine-level model of merge_trials for the mutation claim.  A Python
list [heads, tails] is a heap cell; a Store maps addresses to cell
contents and records the next fresh address; a dict maps keys to cell
addresses.  The inner loop either adds into the cell addressed by d[k]
(the two in-place += statements) or binds d[k] to a fresh cell holding a
copy of the input cell (`d[k] = item[:]`).  The input cell is read before
the write; this matches Python because the written cell is always a
freshly allocated copy, never an input cell. -/

structure Store where
  mem : Nat → Nat × Nat
  next : Nat

/-- Address-level histogram: keys mapped to addresses of their cells. -/
abbrev HistRef := List (Nat × Nat)

def hlookupRef : HistRef → Nat → Option Nat
  | [], _ => none
  | (k, a) :: rest, j => if k = j then some a else hlookupRef rest j

/-- One inner-loop iteration of merge_trials on the heap: `k` is the key
and `a` the address of the input's cell for `k`. -/
def mergeStepRef (sd : Store × HistRef) (k : Nat) (a : Nat) : Store × HistRef :=
  match hlookupRef sd.2 k with
  | some da =>
    (⟨fun x => if x = da then
        ((sd.1.mem da).1 + (sd.1.mem a).1, (sd.1.mem da).2 + (sd.1.mem a).2)
      else sd.1.mem x, sd.1.next⟩, sd.2)
  | none =>
    (⟨fun x => if x = sd.1.next then sd.1.mem a else sd.1.mem x, sd.1.next + 1⟩,
      sd.2 ++ [(k, sd.1.next)])

/-- Heap-level merge_trials: fold the inner loop over every entry of
every input, starting from an empty dict. -/
def merge_trialsRef (st : Store) (trs : List HistRef) : Store × HistRef :=
  trs.foldl (fun sd tr => tr.foldl (fun sd2 e => mergeStepRef sd2 e.1 e.2) sd) (st, [])

theorem hlookupRef_mem (d : HistRef) (k a : Nat) (h : hlookupRef d k = some a) :
    (k, a) ∈ d := by
  induction d with
  | nil => cases h
  | cons e rest ih =>
    obtain ⟨k2, a2⟩ := e
    by_cases hk : k2 = k
    · subst hk
      simp [hlookupRef] at h
      simp [h]
    · simp [hlookupRef, hk] at h
      exact List.mem_cons_of_mem _ (ih h)

/-- Frame invariant of the heap-level merge: the fresh-address counter
never decreases, pre-existing cells keep their contents, and every cell
of the output dict is freshly allocated. -/
def RefInv (st0 : Store) (sd : Store × HistRef) : Prop :=
  st0.next ≤ sd.1.next ∧
  (∀ a, a < st0.next → sd.1.mem a = st0.mem a) ∧
  (∀ e ∈ sd.2, st0.next ≤ e.2 ∧ e.2 < sd.1.next)

theorem mergeStepRef_inv (st0 : Store) (sd : Store × HistRef) (k a : Nat)
    (hinv : RefInv st0 sd) : RefInv st0 (mergeStepRef sd k a) := by
  obtain ⟨h1, h2, h3⟩ := hinv
  unfold mergeStepRef
  rcases hd : hlookupRef sd.2 k with _ | da
  · refine ⟨by simp; omega, ?_, ?_⟩
    · intro x hx
      simp only
      rw [if_neg (by omega : ¬ x = sd.1.next)]
      exact h2 x hx
    · intro e he
      simp only at he ⊢
      rcases List.mem_append.mp he with hin | hnew
      · have := h3 e hin
        omega
      · rw [List.mem_singleton] at hnew
        subst hnew
        simp
        omega
  · have hmem : (k, da) ∈ sd.2 := hlookupRef_mem sd.2 k da hd
    have hda := h3 (k, da) hmem
    simp only at hda
    refine ⟨by simpa using h1, ?_, ?_⟩
    · intro x hx
      simp only
      rw [if_neg (by omega : ¬ x = da)]
      exact h2 x hx
    · intro e he
      simp only at he
      have := h3 e he
      simpa using this

theorem foldl_mergeStepRef_inv (st0 : Store) (tr : HistRef) :
    ∀ sd : Store × HistRef, RefInv st0 sd →
      RefInv st0 (tr.foldl (fun sd2 e => mergeStepRef sd2 e.1 e.2) sd) := by
  induction tr with
  | nil => intro sd hsd; exact hsd
  | cons e rest ih =>
    intro sd hsd
    rw [List.foldl_cons]
    exact ih _ (mergeStepRef_inv st0 sd e.1 e.2 hsd)

theorem merge_trialsRef_inv (st : Store) (trs : List HistRef) :
    RefInv st (merge_trialsRef st trs) := by
  unfold merge_trialsRef
  have main : ∀ (l : List HistRef) (sd : Store × HistRef), RefInv st sd →
      RefInv st (l.foldl (fun sd tr => tr.foldl (fun sd2 e => mergeStepRef sd2 e.1 e.2) sd) sd) := by
    intro l
    induction l with
    | nil => intro sd hsd; exact hsd
    | cons t ts ih =>
      intro sd hsd
      rw [List.foldl_cons]
      exact ih _ (foldl_mergeStepRef_inv st t sd hsd)
  refine main trs (st, []) ⟨Nat.le_refl _, fun a _ => rfl, ?_⟩
  intro e he
  cases he

/-- No-mutation property of the Result Merger asserted by claim C8: after
the merge, every cell of every input histogram holds exactly the value it
held before, and every cell of the returned histogram is a fresh address,
so the result shares no mutable structure with the inputs. -/
def MergeNoMutationSpec (st : Store) (trs : List HistRef) : Prop :=
  (∀ tr ∈ trs, ∀ e ∈ tr, (merge_trialsRef st trs).1.mem e.2 = st.mem e.2) ∧
  (∀ e ∈ (merge_trialsRef st trs).2, st.next ≤ e.2)

/-- C8: merge_trials leaves every input histogram unchanged and returns a
histogram sharing no mutable cell with the inputs (every output cell is
allocated during the merge, as `d[k] = item[:]` copies). -/
theorem C8_merge_no_mutation (st : Store) (trs : List HistRef)
    (hv : ∀ tr ∈ trs, ∀ e ∈ tr, e.2 < st.next) : MergeNoMutationSpec st trs := by
  obtain ⟨h1, h2, h3⟩ := merge_trialsRef_inv st trs
  exact ⟨fun tr htr e he => h2 e.2 (hv tr htr e he), fun e he => (h3 e he).1⟩

/-- Witness for C8: two one-key inputs whose cells sit at addresses 0 and
1 in a store whose fresh addresses start at 2. -/
theorem C8_merge_no_mutation_witness :
    (∀ tr ∈ ([[(1, 0)], [(1, 1)]] : List HistRef), ∀ e ∈ tr,
      e.2 < (Store.mk (fun _ => (3, 4)) 2).next) ∧
    MergeNoMutationSpec (Store.mk (fun _ => (3, 4)) 2) [[(1, 0)], [(1, 1)]] :=
  ⟨by decide,
    C8_merge_no_mutation (Store.mk (fun _ => (3, 4)) 2) [[(1, 0)], [(1, 1)]] (by decide)⟩

/-! Entry-point parameter values (line 95 and the __main__ block). -/

/-- Default value of the num_trials parameter in the definition of main:
`def main(out_file, num_trials=1000, num_workers=1)`. -/
def main_default_num_trials : Nat := 1000

/-- Default value of the num_workers parameter in the definition of main. -/
def main_default_num_workers : Nat := 1

/-- Trial count the __main__ block passes explicitly: `nt = 1000000`. -/
def script_num_trials : Nat := 1000000

/-- Worker count the __main__ block passes explicitly:
`np = mp.cpu_count()`; the host's cpu count is taken as a parameter. -/
def script_num_workers (cpu_count : Nat) : Nat := cpu_count

/-- Run modelled by the __main__ block: main invoked on the home-directory
CSV path with the explicit script arguments. -/
def script_main (file_exists : Bool) (cpu_count : Nat) (flips : Nat → Nat → Bool) :
    Except String (List (Nat × Nat × Nat)) :=
  mainModel "probability_data.csv" file_exists script_num_trials
    (script_num_workers cpu_count) flips

/-- C9 counterexample: the entry point's own default trial count is 1000
and its default worker count is 1, so omitting the arguments does not
give one million trials or cpu_count workers; the one-million and
cpu_count values are explicit arguments in the __main__ block. -/
theorem C9_counterexample :
    main_default_num_trials = 1000 ∧ main_default_num_trials ≠ 1000000 ∧
    main_default_num_workers = 1 := by
  decide

/-- C9 (amended): when the caller omits them, main's total trial count
defaults to 1000 and its worker count to 1; the one-million trial count
and the cpu_count worker count are what the __main__ script block passes
explicitly, so a script run uses those values. -/
theorem C9_entry_defaults :
    main_default_num_trials = 1000 ∧ main_default_num_workers = 1 ∧
    script_num_trials = 1000000 ∧ (∀ c : Nat, script_num_workers c = c) ∧
    (∀ (fe : Bool) (c : Nat) (flips : Nat → Nat → Bool),
      script_main fe c flips = mainModel "probability_data.csv" fe 1000000 c flips) :=
  ⟨rfl, rfl, rfl, fun _ => rfl, fun _ _ _ => rfl⟩

/-- Witness for C2 on the concrete inputs [[(1,2,3)], [(1,1,1),(2,0,1)]]. -/
theorem C2_merge_elementwise_witness :
    (∀ tr ∈ [[((1 : Nat), (2 : Nat), (3 : Nat))], [(1, 1, 1), (2, 0, 1)]],
      (keysOf tr).Nodup) ∧
    MergeElementwiseSpec [[(1, 2, 3)], [(1, 1, 1), (2, 0, 1)]] :=
  ⟨by decide, C2_merge_elementwise [[(1, 2, 3)], [(1, 1, 1), (2, 0, 1)]] (by decide)⟩
